import Mathlib

/-!
Verification of the content pipeline of the `my-site` static site generator.

The generator (Rust) turns a tree of Markdown files into a static site.  This
file gives a shallow embedding of the pipeline's core functions and proves
properties of them:

* `get_abs_path` / `try_normalize` (src/generator/src/markdown.rs): lexical
  link resolution relative to a document, rejecting escapes;
* `MarkdownBuilder::patch_link` (markdown.rs): rewriting of plain links;
* `BlogEntry::parse_path` (src/generator/src/blog_entry.rs): blog filename
  parsing into a date and a slug;
* `MarkdownBuilder::get_title` (markdown.rs): title extraction precedence;
* `Generator::try_get_blog_entry` / `handle_file` (src/generator/src/generator.rs);
* `GitRepo::commits_for_file` (src/generator/src/git_repo.rs);
* `Generator::build_rss` and `Generator::new` (generator.rs).

Rust `Path`s are modelled as an absolute flag plus the list of normal
components; strings remain Lean `String`s (both sides of every comparison the
code makes are UTF-8 clean here, so byte and char indexing agree on the ASCII
prefixes involved).
-/

namespace MySite

/-- Model of a Rust `Path`/`PathBuf`: an absolute flag plus the list of
components.  `"."` and `".."` are kept as ordinary component strings and are
interpreted by `tryNormalize`, matching `std::path::Component`'s `CurDir` /
`ParentDir` where the pipeline inspects them. -/
structure RPath where
  abs : Bool
  comps : List String
deriving Repr, DecidableEq

/-- Split a character list on a separator, keeping empty pieces, as Rust
`str::split` does. -/
def splitOnChar (sep : Char) : List Char → List (List Char)
  | [] => [[]]
  | c :: rest =>
    if c = sep then [] :: splitOnChar sep rest
    else
      match splitOnChar sep rest with
      | [] => [[c]]
      | p :: ps => (c :: p) :: ps

/-- Parse a path string into its components, as `Path::new`:  a leading `/`
makes it absolute, empty components (doubled or trailing separators) vanish. -/
def parsePath (s : String) : RPath :=
  { abs := s.data.head? = some '/'
    comps := ((splitOnChar '/' s.data).map fun cs => (⟨cs⟩ : String)).filter (· ≠ "") }

/-- `Path::parent` followed by `unwrap_or(Path::new(""))`, as used by
`get_abs_path` for the document's containing directory. -/
def RPath.parent (p : RPath) : RPath :=
  { abs := p.abs, comps := p.comps.dropLast }

/-- `Path::join`: joining an absolute path replaces the receiver wholesale. -/
def RPath.join (p q : RPath) : RPath :=
  if q.abs then q else { abs := p.abs, comps := p.comps ++ q.comps }

/-- Core of `normalize_path::NormalizePath::try_normalize`: fold over the
components, `.` is dropped, `..` pops the accumulator and fails when there is
nothing to pop. -/
def tryNormAux : List String → List String → Option (List String)
  | acc, [] => some acc
  | acc, c :: rest =>
    if c = "." then tryNormAux acc rest
    else if c = ".." then
      match acc with
      | [] => none
      | _ => tryNormAux acc.dropLast rest
    else tryNormAux (acc ++ [c]) rest

/-- `normalize_path::NormalizePath::try_normalize`: purely lexical
normalization that fails on absolute paths and on paths escaping upward.  The
repository's own `tests::path_join` pins this behaviour (in particular that an
absolute input fails). -/
def tryNormalize (p : RPath) : Option RPath :=
  if p.abs then none
  else (tryNormAux [] p.comps).map fun cs => { abs := false, comps := cs }

/-- `get_abs_path` (markdown.rs): join the link onto the document's directory,
normalize lexically, and prefix the root separator. -/
def getAbsPath (markdownPath linkFilePath : RPath) : Option RPath :=
  (tryNormalize (markdownPath.parent.join linkFilePath)).map fun p =>
    { abs := true, comps := p.comps }

/-- Split a file name at its last `.`, provided that dot is not the leading
character: returns `(stem, ext)`.  Mirrors how `Path::extension` and
`Path::file_stem` carve up a file name. -/
def splitLastDot (f : String) : Option (String × String) :=
  let r := f.data.reverse
  let extR := r.takeWhile (· ≠ '.')
  match r.drop extR.length with
  | '.' :: stemR =>
    if stemR = [] then none
    else some (⟨stemR.reverse⟩, ⟨extR.reverse⟩)
  | _ => none

/-- `Path::file_name`: the last component, unless it is `..` (or a bare `.`),
in which case there is no file name. -/
def RPath.fileName (p : RPath) : Option String :=
  p.comps.getLast?.bind fun c => if c = ".." ∨ c = "." then none else some c

/-- `Path::extension`: the part of the file name after its last non-leading
dot. -/
def RPath.extension (p : RPath) : Option String :=
  p.fileName.bind fun f => (splitLastDot f).map (·.2)

/-- The repository's `PathExt::extension_is` (main.rs):
`self.extension().and_then(|x| x.to_str()) == ext`. -/
def extensionIs (p : RPath) (ext : String) : Bool :=
  p.extension = some ext

/-- `PathBuf::set_extension("")`: drop the extension (with its dot) from the
file name, if there is one. -/
def setExtensionEmpty (p : RPath) : RPath :=
  match p.fileName with
  | none => p
  | some f =>
    match splitLastDot f with
    | none => p
    | some (stem, _) => { abs := p.abs, comps := p.comps.dropLast ++ [stem] }

/-- `PathBuf::set_file_name`: pop the file name (when present) and push the
new one. -/
def setFileName (p : RPath) (name : String) : RPath :=
  match p.fileName with
  | some _ => { abs := p.abs, comps := p.comps.dropLast ++ [name] }
  | none => { abs := p.abs, comps := p.comps ++ [name] }

/-- `Path::starts_with("/blog/")`: component-wise prefix check. -/
def startsWithBlog (p : RPath) : Bool :=
  p.abs && p.comps.head? = some "blog"

/-- Interleave a separator between strings (as `String.intercalate`, but in a
directly-reducing form). -/
def joinSep (sep : String) : List String → String
  | [] => ""
  | [x] => x
  | x :: xs => x ++ sep ++ joinSep sep xs

/-- Render an `RPath` back to a string, as `Path::to_str` displays it. -/
def RPath.toStr (p : RPath) : String :=
  (if p.abs then "/" else "") ++ joinSep "/" p.comps

/-- Helper for `isUrl`: scan for the `:` terminating a URL scheme, allowing
the scheme characters the WHATWG grammar allows after the first. -/
def schemeColon : List Char → Bool
  | [] => false
  | c :: r =>
    if c = ':' then true
    else (c.isAlphanum || c = '+' || c = '-' || c = '.') && schemeColon r

/-- `is_url` (markdown.rs): `str.parse::<url::Url>().is_ok()`.  A string
parses as an absolute WHATWG URL exactly when it carries a scheme: an ASCII
letter followed by scheme characters and a colon.  Scheme-less strings
(relative references, fragments, empty strings) fail to parse. -/
def isUrl (s : String) : Bool :=
  match s.data with
  | c :: rest => c.isAlpha && schemeColon rest
  | [] => false

/-- Digits-only string to its value, `none` on empty or non-digit input. -/
def parseDigits (cs : List Char) : Option Nat :=
  if cs = [] then none
  else if cs.all Char.isDigit then
    some (cs.foldl (fun a c => a * 10 + (c.toNat - 48)) 0)
  else none

/-- Rust `str::parse::<u32>`: optional leading `+`, all digits, range check. -/
def parseU32 (s : String) : Option Nat :=
  let cs := match s.data with
    | '+' :: r => r
    | cs => cs
  (parseDigits cs).bind fun n => if n < 2 ^ 32 then some n else none

/-- Rust `str::parse::<i32>`: optional sign, all digits, range check. -/
def parseI32 (s : String) : Option Int :=
  match s.data with
  | '-' :: r => (parseDigits r).bind fun n =>
      if n ≤ 2 ^ 31 then some (-(n : Int)) else none
  | '+' :: r => (parseDigits r).bind fun n =>
      if n < 2 ^ 31 then some (n : Int) else none
  | cs => (parseDigits cs).bind fun n =>
      if n < 2 ^ 31 then some (n : Int) else none

/-- A calendar date as `chrono::NaiveDate` stores it. -/
structure NDate where
  year : Int
  month : Nat
  day : Nat
deriving Repr, DecidableEq

/-- The Gregorian leap-year rule, as `chrono` applies it. -/
def isLeapYear (y : Int) : Bool :=
  (y % 4 = 0 && y % 100 ≠ 0) || y % 400 = 0

/-- Days in a month of a given year. -/
def daysInMonth (y : Int) (m : Nat) : Nat :=
  match m with
  | 1 => 31
  | 2 => if isLeapYear y then 29 else 28
  | 3 => 31
  | 4 => 30
  | 5 => 31
  | 6 => 30
  | 7 => 31
  | 8 => 31
  | 9 => 30
  | 10 => 31
  | 11 => 30
  | 12 => 31
  | _ => 0

/-- `chrono::NaiveDate::from_ymd_opt`: `some` exactly on real calendar dates
within chrono's representable year range. -/
def fromYmdOpt (y : Int) (m d : Nat) : Option NDate :=
  if -262144 ≤ y ∧ y ≤ 262143 ∧ 1 ≤ m ∧ m ≤ 12 ∧ 1 ≤ d ∧ d ≤ daysInMonth y m
  then some ⟨y, m, d⟩ else none

/-- Rust `str::splitn(n, sep)` over the character list: at most `n` pieces,
the last piece keeps the remaining separators verbatim. -/
def splitnCore (sep : Char) : Nat → List Char → List (List Char)
  | 0, _ => []
  | 1, cs => [cs]
  | n + 2, cs =>
    let pre := cs.takeWhile (· != sep)
    if pre.length = cs.length then [cs]
    else pre :: splitnCore sep (n + 1) (cs.drop (pre.length + 1))

/-- Rust `str::splitn(n, sep)` on strings. -/
def splitn (n : Nat) (sep : Char) (s : String) : List String :=
  (splitnCore sep n s.data).map fun cs => ⟨cs⟩

/-- The splitting-and-parsing core of `BlogEntry::parse_path`
(blog_entry.rs): split the extension-stripped file name at the first three
hyphens, parse the three leading fields as year/month/day, validate them as a
calendar date; the fourth field, verbatim, is the slug. -/
def parseDateSlug (fileName : String) : Except String (NDate × String) :=
  match splitn 4 '-' fileName with
  | [year, month, day, name] =>
    match parseI32 year with
    | none => .error "failed to parse year"
    | some y =>
      match parseU32 month with
      | none => .error "failed to parse month"
      | some m =>
        match parseU32 day with
        | none => .error "failed to parse day"
        | some d =>
          match fromYmdOpt y m d with
          | none => .error "the date isn't valid"
          | some date => .ok (date, name)
  | _ => .error "expected the filename have the format of yyyy-mm-dd-blog-name"

/-- `BlogEntry::parse_path` (blog_entry.rs): strip the extension, take the
file name, and parse it as a date plus slug. -/
def parsePathBlog (path : RPath) : Except String (NDate × String) :=
  match (setExtensionEmpty path).fileName with
  | none => .error "file name not found"
  | some fileName => parseDateSlug fileName

/-- `MarkdownBuilder::patch_link` (markdown.rs): URLs pass through; other
targets are resolved with `get_abs_path` (failure is a build error); a
resolved `.md` path under `/blog/` has its file name replaced by the parsed
slug; a resolved path still ending in `.md` loses the extension. -/
def patchLink (filePath : RPath) (url : String) : Except String String :=
  if isUrl url then .ok url
  else
    match getAbsPath filePath (parsePath url) with
    | none => .error "the path is points outside current directory"
    | some newPath =>
      match
        (if extensionIs newPath "md" && startsWithBlog newPath then
          match parsePathBlog newPath with
          | .error e => .error e
          | .ok (_, name) => .ok (setFileName newPath name)
        else .ok newPath : Except String RPath)
      with
      | .error e => .error e
      | .ok np => .ok (if extensionIs np "md" then setExtensionEmpty np else np).toStr

/-- `MarkdownBuilder::patch_image_link` (markdown.rs): as `patch_link` but
without the blog-slug step. -/
def patchImageLink (filePath : RPath) (url : String) : Except String String :=
  if isUrl url then .ok url
  else
    match getAbsPath filePath (parsePath url) with
    | none => .error "the path is points outside current directory"
    | some newPath =>
      let np := if extensionIs newPath "md" then setExtensionEmpty newPath else newPath
      .ok np.toStr

/-- The deserialized YAML frontmatter (markdown.rs `struct Frontmatter`);
the YAML deserialization itself is external (`serde_yaml`). -/
structure Frontmatter where
  title : Option String
  description : Option String
  tags : List String
deriving Repr, DecidableEq

/-- A node of the parsed Markdown tree.  A list of these stands for
`root.descendants()` in document order. -/
inductive MdNode where
  | heading (level : Nat) (inline : String)
  | paragraph (text : String)
  | other
deriving Repr, DecidableEq

/-- A piece of content in source and rendered form (markdown.rs `Content`). -/
structure ContentPair where
  markdown : String
  html : String
deriving Repr, DecidableEq

/-- The predicate `get_title` searches with: a heading node of level 1. -/
def isH1 : MdNode → Bool
  | .heading 1 _ => true
  | _ => false

/-- comrak's `format_commonmark` output for a level-1 heading node:
`# ` marker, the inline content, a newline. -/
def formatCommonmarkH1 (inline : String) : String :=
  "# " ++ inline ++ "\n"

/-- Rust `str::trim_end`: drop trailing whitespace characters. -/
def rustTrimEnd (s : String) : String :=
  ⟨(s.data.reverse.dropWhile Char.isWhitespace).reverse⟩

/-- `MarkdownBuilder::get_title` (markdown.rs): a frontmatter title is used
verbatim; otherwise the first level-1 heading is re-rendered to Markdown, the
leading two characters (`# `) dropped and the end trimmed.  `render` stands
for `comrak::markdown_to_html`. -/
def getTitle (render : String → String) (fm : Frontmatter) (nodes : List MdNode) :
    Option ContentPair :=
  let markdown :=
    match fm.title with
    | some t => some t
    | none =>
      match nodes.find? isH1 with
      | some (.heading _ inline) =>
        some (rustTrimEnd ⟨(formatCommonmarkH1 inline).data.drop 2⟩)
      | _ => none
  markdown.map fun t => { markdown := t, html := render t }

/-- The title step of `MarkdownBuilder::build` (markdown.rs):
`get_title(..).context("title not found")?`. -/
def buildTitle (render : String → String) (fm : Frontmatter) (nodes : List MdNode) :
    Except String ContentPair :=
  match getTitle render fm nodes with
  | some c => .ok c
  | none => .error "title not found"

/-- How `Generator::handle_file` ends up treating a source file. -/
inductive FileAction where
  | blogPage (date : NDate) (slug : String)
  | ordinaryPage
  | copyFile
deriving Repr, DecidableEq

/-- Modelled from the spec: `markdown::parse_blog_file_name`, called by
`Generator::try_get_blog_entry`, is absent from the tree (only the caller
is).  Spec section 4.5: the extension-stripped filename is split into at most
4 components at the first 3 hyphens, the first three must parse as a valid
calendar date, and the remainder, verbatim, is the slug — the same grammar as
`BlogEntry::parse_path` in blog_entry.rs, reused here on a bare file name. -/
def parseBlogFileName (s : String) : Except String (NDate × String) :=
  parseDateSlug s

/-- `Generator::try_get_blog_entry` (generator.rs), the classification part:
`none` unless the path is a `.md` file directly under `blog/` whose name
parses as date-plus-slug; a failed name parse is swallowed by `.ok()` and
yields `none`, never an error. -/
def tryGetBlogEntry (relMdPath : RPath) : Except String (Option (NDate × String)) :=
  if ¬ extensionIs relMdPath "md" then .ok none
  else if relMdPath.parent ≠ ({ abs := false, comps := ["blog"] } : RPath) then .ok none
  else
    match (setExtensionEmpty relMdPath).fileName with
    | none => .ok none
    | some s =>
      match parseBlogFileName s with
      | .error _ => .ok none
      | .ok (time, slug) => .ok (some (time, slug))

/-- `Generator::handle_file` (generator.rs), restricted to how the file is
classified: a blog page when `try_get_blog_entry` returns an entry, an
ordinary rendered page for any other `.md`, a plain copy otherwise. -/
def handleFile (relPath : RPath) : Except String FileAction :=
  if extensionIs relPath "md" then do
    match ← tryGetBlogEntry relPath with
    | some (time, slug) => .ok (.blogPage time slug)
    | none => .ok .ordinaryPage
  else .ok .copyFile

/-- The last (most recent) commit of a blog entry as `Generator::BlogCommit`
keeps it; `time` is the commit time as a UTC instant (epoch seconds), which
is what `to_utc()` compares. -/
structure BlogCommitM where
  time : Int
  hash : String
deriving Repr, DecidableEq

/-- The slice of `Generator::BlogEntry` that `build_rss` reads. -/
structure BlogEntryM where
  lastCommit : Option BlogCommitM
deriving Repr, DecidableEq

/-- The feed timestamps `build_rss` emits. -/
structure RssFeed where
  pubDate : Int
  lastBuildDate : Int
deriving Repr, DecidableEq

/-- `Generator::build_rss` (generator.rs): take the maximum of the entries'
last-commit times (entries without history contribute nothing); when there is
none, return without emitting a feed; otherwise both `pub_date` and
`last_build_date` are that maximum. -/
def buildRss (allBlog : List BlogEntryM) : Except String (Option RssFeed) :=
  match ((allBlog.filterMap BlogEntryM.lastCommit).map BlogCommitM.time).max? with
  | none => .ok none
  | some t => .ok (some { pubDate := t, lastBuildDate := t })

/-- `Generator::new` (generator.rs): the destination-existence check
(`dst_dir.try_exists()?`) comes before opening the git repository and reading
the config, and nothing is written (`create_dir_all` only happens later in
`build`).  The check is pure existence: whether the directory is empty is
never consulted. -/
def generatorNew (dstDirExists : Bool) (dstDirIsEmptyDir : Bool)
    (openGitRepo : Except String Unit) (readConfig : Except String Unit) :
    Except String Unit :=
  if dstDirExists then .error "output dir is not empty"
  else do
    openGitRepo
    readConfig
    .ok ()

/-- One commit record: commit time (epoch seconds), parent ids in first-parent
order, and the tree restricted to a path-to-blob map. -/
structure CommitData where
  time : Int
  parents : List Nat
  tree : List (String × String)
deriving Repr, DecidableEq

/-- The repository's commit store together with the branch head. -/
structure GitGraph where
  commits : List (Nat × CommitData)
  head : Nat
deriving Repr, DecidableEq

/-- `Repository::find_commit`. -/
def GitGraph.lookup (g : GitGraph) (i : Nat) : Option CommitData :=
  (g.commits.find? fun pr => pr.1 = i).map (·.2)

/-- All commit ids present in the store. -/
def GitGraph.ids (g : GitGraph) : List Nat := g.commits.map (·.1)

/-- Look a path up in a tree. -/
def treeAt (t : List (String × String)) (path : String) : Option String :=
  (t.find? fun e => e.1 = path).map (·.2)

/-- The parent ids of a commit (empty when the commit is unknown). -/
def parentsOf (g : GitGraph) (i : Nat) : List Nat :=
  ((g.lookup i).map CommitData.parents).getD []

/-- One step of the reachable-set computation: add every parent. -/
def reachStep (g : GitGraph) (s : List Nat) : List Nat :=
  (s ++ s.flatMap (parentsOf g)).dedup

/-- `n` steps of the reachable-set computation from the head. -/
def reachN (g : GitGraph) : Nat → List Nat
  | 0 => [g.head]
  | n + 1 => reachStep g (reachN g n)

/-- The ids reachable from the head (the computation stabilizes within
`commits.length` steps). -/
def reachableIds (g : GitGraph) : List Nat := reachN g g.commits.length

/-- Reverse-chronological order on commits, newest first. -/
def newerEq (a b : Nat × CommitData) : Prop := b.2.time ≤ a.2.time

instance : DecidableRel newerEq := fun a b => Int.decLe b.2.time a.2.time

instance : IsTotal (Nat × CommitData) newerEq := ⟨fun a b => Int.le_total b.2.time a.2.time⟩

instance : IsTrans (Nat × CommitData) newerEq := ⟨fun _ _ _ h1 h2 => le_trans h2 h1⟩

/-- The revwalk `commits_for_file` iterates: `push_head()` plus
`Sort::TIME` gives the commits reachable from the head, newest first by
commit time. -/
def revwalk (g : GitGraph) : List (Nat × CommitData) :=
  List.insertionSort newerEq ((reachableIds g).filterMap fun i => (g.lookup i).map (i, ·))

/-- A tree-to-tree diff restricted by the pathspec to one path: non-empty iff
the entry at that path differs. -/
def diffRestrictedNonempty (parentTree tree : List (String × String)) (path : String) : Bool :=
  treeAt parentTree path != treeAt tree path

/-- The per-commit body of `commits_for_file`: diff against the first
parent's tree, or against the empty tree for a root commit. -/
def diffForCommit (g : GitGraph) (cd : CommitData) (path : String) : Except String Bool :=
  match cd.parents with
  | [] => .ok (diffRestrictedNonempty [] cd.tree path)
  | pid :: _ =>
    match g.lookup pid with
    | none => .error "failed to find parent commit"
    | some pd => .ok (diffRestrictedNonempty pd.tree cd.tree path)

/-- The loop of `commits_for_file` over the walk output (the `?` operators
written as explicit matches). -/
def commitsForFileAux (g : GitGraph) (path : String) :
    List (Nat × CommitData) → Except String (List (Nat × CommitData))
  | [] => .ok []
  | c :: rest =>
    match diffForCommit g c.2 path with
    | .error e => .error e
    | .ok b =>
      match commitsForFileAux g path rest with
      | .error e => .error e
      | .ok r => .ok (if b then c :: r else r)

/-- `GitRepo::commits_for_file` (git_repo.rs): walk the graph from `HEAD`
newest-first and keep the commits whose first-parent diff restricted to the
given path is non-empty. -/
def commitsForFile (g : GitGraph) (path : String) :
    Except String (List (Nat × CommitData)) :=
  commitsForFileAux g path (revwalk g)

/-- Reachability from the branch head along parent edges. -/
inductive Reaches (g : GitGraph) : Nat → Prop
  | head : Reaches g g.head
  | parent {c p cd} : Reaches g c → g.lookup c = some cd → p ∈ cd.parents → Reaches g p

/-- A well-formed commit store: the head and every parent reference resolve
to a stored commit. -/
def WFGraph (g : GitGraph) : Prop :=
  g.head ∈ g.ids ∧ ∀ pr ∈ g.commits, ∀ q ∈ pr.2.parents, q ∈ g.ids

instance (g : GitGraph) : Decidable (WFGraph g) := by
  unfold WFGraph; infer_instance

/-- Whether a commit touches `path` relative to its first parent — the
predicate `commits_for_file` effectively filters by (under a well-formed
store). -/
def modifiesPath (g : GitGraph) (cd : CommitData) (path : String) : Bool :=
  match cd.parents with
  | [] => diffRestrictedNonempty [] cd.tree path
  | pid :: _ => diffRestrictedNonempty (((g.lookup pid).map CommitData.tree).getD []) cd.tree path

/-- A concrete three-commit linear history: commit 1 creates `blog/a.md`,
commit 2 adds `b.md`, commit 3 edits `blog/a.md`. -/
def gWitness : GitGraph :=
  { commits := [
      (1, { time := 10, parents := [], tree := [("blog/a.md", "v1")] }),
      (2, { time := 20, parents := [1], tree := [("blog/a.md", "v1"), ("b.md", "w1")] }),
      (3, { time := 30, parents := [2], tree := [("blog/a.md", "v2"), ("b.md", "w1")] })]
    head := 3 }

/-- The numeric value of a digit list. -/
def digitsVal (cs : List Char) : Nat :=
  cs.foldl (fun a c => a * 10 + (c.toNat - 48)) 0

/-- The pattern the spec claims for blog filenames:
`^\d{4}-\d{2}-\d{2}-.+$` — three leading numeric groups of fixed widths
4/2/2 forming a valid calendar date, then a non-empty remainder. -/
def specBlogPattern (s : String) : Bool :=
  match s.data with
  | y1 :: y2 :: y3 :: y4 :: '-' :: m1 :: m2 :: '-' :: d1 :: d2 :: '-' :: rest =>
    ([y1, y2, y3, y4, m1, m2, d1, d2].all Char.isDigit) && rest ≠ [] &&
      (fromYmdOpt (digitsVal [y1, y2, y3, y4]) (digitsVal [m1, m2])
        (digitsVal [d1, d2])).isSome
  | _ => false

/-- The amended blog-filename grammar, stated structurally rather than
through `splitn`: the name decomposes at its first three hyphens into three
hyphen-free fields that parse as integers (Rust `parse` semantics — widths
are NOT enforced, signs and leading zeros are accepted) forming a valid
calendar date, and the verbatim remainder is the slug. -/
def SpecBlogName (f : String) (date : NDate) (slug : String) : Prop :=
  ∃ ys ms ds, f = ys ++ "-" ++ ms ++ "-" ++ ds ++ "-" ++ slug ∧
    '-' ∉ ys.data ∧ '-' ∉ ms.data ∧ '-' ∉ ds.data ∧
    ∃ y m d, parseI32 ys = some y ∧ parseU32 ms = some m ∧ parseU32 ds = some d ∧
      fromYmdOpt y m d = some date

/-- Join character lists with a separator: the left inverse of splitting. -/
def joinChar (sep : Char) : List (List Char) → List Char
  | [] => []
  | [x] => x
  | x :: xs => x ++ sep :: joinChar sep xs

/-! ## Lemmas about path resolution -/

/-- Normalization is the identity on component lists without dot segments. -/
theorem tryNormAux_no_dots :
    ∀ (l acc : List String), "." ∉ l → ".." ∉ l → tryNormAux acc l = some (acc ++ l) := by
  intro l
  induction l with
  | nil => intro acc _ _; simp [tryNormAux]
  | cons c rest ih =>
    intro acc h1 h2
    have hc1 : ¬ c = "." := fun h => h1 (by simp [h])
    have hc2 : ¬ c = ".." := fun h => h2 (by simp [h])
    have h1r : "." ∉ rest := fun h => h1 (List.mem_cons_of_mem _ h)
    have h2r : ".." ∉ rest := fun h => h2 (List.mem_cons_of_mem _ h)
    simp only [tryNormAux, if_neg hc1, if_neg hc2]
    rw [ih (acc ++ [c]) h1r h2r]
    simp

/-- C2: for document `foo/bar.md`, resolving `../../images/image.png` fails —
and `patch_link` turns that failure into a build error — while
`../images/image.png` resolves to `/images/image.png` and `images/image.png`
resolves to `/foo/images/image.png`; moreover every successful resolution is
root-relative (carries the single leading separator). -/
theorem c2_escape_rejection :
    getAbsPath (parsePath "foo/bar.md") (parsePath "../../images/image.png") = none ∧
    patchLink (parsePath "foo/bar.md") "../../images/image.png" =
      .error "the path is points outside current directory" ∧
    getAbsPath (parsePath "foo/bar.md") (parsePath "../images/image.png") =
      some { abs := true, comps := ["images", "image.png"] } ∧
    getAbsPath (parsePath "foo/bar.md") (parsePath "images/image.png") =
      some { abs := true, comps := ["foo", "images", "image.png"] } ∧
    (∀ md l p, getAbsPath md l = some p → p.abs = true) := by
  refine ⟨rfl, rfl, rfl, rfl, ?_⟩
  intro md l p h
  unfold getAbsPath at h
  cases htn : tryNormalize (md.parent.join l) with
  | none => rw [htn] at h; simp at h
  | some q =>
    rw [htn] at h
    simp only [Option.map_some', Option.some_inj] at h
    rw [← h]

/-- Witness for `c2_escape_rejection`: the general root-relativity clause at
a concrete resolution. -/
theorem c2_escape_rejection_witness :
    RPath.abs { abs := true, comps := ["foo", "images", "image.png"] } = true :=
  c2_escape_rejection.2.2.2.2 (parsePath "foo/bar.md") (parsePath "images/image.png") _ rfl

/-- C5 counterexample: `/images/image.png` is already root-relative with no
dot segments, yet resolving it from `foo/bar.md` yields `none`, not the path
itself — exactly what the repository's own test `tests::path_join` asserts. -/
theorem c5_counterexample :
    parsePath "/images/image.png" = { abs := true, comps := ["images", "image.png"] } ∧
    getAbsPath (parsePath "foo/bar.md") (parsePath "/images/image.png") = none ∧
    getAbsPath (parsePath "foo/bar.md") (parsePath "/images/image.png") ≠
      some (parsePath "/images/image.png") := by
  refine ⟨rfl, rfl, ?_⟩
  intro h
  rw [show getAbsPath (parsePath "foo/bar.md") (parsePath "/images/image.png") = none from rfl]
    at h
  exact Option.noConfusion h

/-- C5 amended: resolution rejects every link target that is already
root-relative (whatever the document), and idempotence only survives in the
weaker form that a canonical relative path (no leading separator, no dot
segments) resolved from a top-level document yields the root-relative path
with those same components. -/
theorem c5_amended :
    (∀ doc p, p.abs = true → getAbsPath doc p = none) ∧
    (∀ (docName : String) (comps : List String), "." ∉ comps → ".." ∉ comps →
      getAbsPath { abs := false, comps := [docName] } { abs := false, comps := comps } =
        some { abs := true, comps := comps }) := by
  constructor
  · intro doc p hp
    unfold getAbsPath RPath.join tryNormalize
    simp [hp]
  · intro docName comps h1 h2
    have hj : ({ abs := false, comps := [docName] } : RPath).parent.join
        { abs := false, comps := comps } = { abs := false, comps := comps } := by
      simp [RPath.parent, RPath.join]
    unfold getAbsPath
    rw [hj]
    simp [tryNormalize, tryNormAux_no_dots comps [] h1 h2]

/-- Witness for `c5_amended` at the repository test's inputs. -/
theorem c5_amended_witness :
    getAbsPath (parsePath "foo/bar.md") (parsePath "/images/image.png") = none ∧
    getAbsPath { abs := false, comps := ["bar.md"] }
        { abs := false, comps := ["images", "image.png"] } =
      some { abs := true, comps := ["images", "image.png"] } :=
  ⟨c5_amended.1 (parsePath "foo/bar.md") (parsePath "/images/image.png") rfl,
   c5_amended.2 "bar.md" ["images", "image.png"] (by decide) (by decide)⟩

/-- C1 counterexample: both "in particular" examples fail as stated — a raw
leading-slash link `/about.md` is a build error rather than `/about`, and
`2024-01-05-my-first-post.md` linked from a document outside `blog/` rewrites
to `/2024-01-05-my-first-post`, not `/blog/my-first-post`. -/
theorem c1_counterexample :
    patchLink (parsePath "index.md") "/about.md" =
      .error "the path is points outside current directory" ∧
    patchLink (parsePath "index.md") "2024-01-05-my-first-post.md" =
      .ok "/2024-01-05-my-first-post" :=
  ⟨rfl, rfl⟩

/-- C1 amended: links resolve relative to the linking document's directory.
A link to `2024-01-05-my-first-post.md` from a document inside `blog/`
rewrites to `/blog/my-first-post`; a link to `about.md` from a top-level
document rewrites to `/about`; a raw leading-slash link is a build error.
In general, a resolved `.md` path under `/blog/` with a parseable date-slug
name has its file name replaced by the slug (then any remaining `.md`
extension stripped), and any other resolved `.md` path just loses the
extension. -/
theorem c1_amended :
    (∀ docName : String,
      patchLink { abs := false, comps := ["blog", docName] } "2024-01-05-my-first-post.md" =
        .ok "/blog/my-first-post") ∧
    (∀ docName : String,
      patchLink { abs := false, comps := [docName] } "about.md" = .ok "/about") ∧
    (∀ doc, patchLink doc "/about.md" =
      .error "the path is points outside current directory") ∧
    (∀ doc url p date slug, isUrl url = false →
      getAbsPath doc (parsePath url) = some p →
      extensionIs p "md" = true → startsWithBlog p = true →
      parsePathBlog p = .ok (date, slug) →
      patchLink doc url = .ok
        (if extensionIs (setFileName p slug) "md"
         then (setExtensionEmpty (setFileName p slug)).toStr
         else (setFileName p slug).toStr)) ∧
    (∀ doc url p, isUrl url = false →
      getAbsPath doc (parsePath url) = some p →
      extensionIs p "md" = true → startsWithBlog p = false →
      patchLink doc url = .ok (setExtensionEmpty p).toStr) := by
  refine ⟨fun docName => rfl, fun docName => rfl, fun doc => rfl, ?_, ?_⟩
  · intro doc url p date slug hurl habs hext hblog hparse
    simp only [patchLink, hurl, habs, hext, hblog, hparse, Bool.and_self,
      Bool.false_eq_true, if_false, if_true]
    exact congrArg Except.ok (apply_ite RPath.toStr _ _ _)
  · intro doc url p hurl habs hext hblog
    simp [patchLink, hurl, habs, hext, hblog]

/-- Witness for `c1_amended`: the general clauses at concrete inputs. -/
theorem c1_amended_witness :
    patchLink (parsePath "blog/other.md") "2024-01-05-my-first-post.md" =
      .ok "/blog/my-first-post" ∧
    patchLink (parsePath "index.md") "about.md" = .ok "/about" :=
  ⟨c1_amended.2.2.2.1 (parsePath "blog/other.md") "2024-01-05-my-first-post.md"
      { abs := true, comps := ["blog", "2024-01-05-my-first-post.md"] }
      ⟨2024, 1, 5⟩ "my-first-post" rfl rfl rfl rfl rfl,
   c1_amended.2.2.2.2 (parsePath "index.md") "about.md"
      { abs := true, comps := ["about.md"] } rfl rfl rfl rfl⟩

/-- C4 counterexample: an empty target, a fragment-only target and a
query-only target are each rewritten — resolved against the document's
directory — rather than passed through unchanged. -/
theorem c4_counterexample :
    patchLink (parsePath "foo/bar.md") "" = .ok "/foo" ∧
    patchLink (parsePath "foo/bar.md") "#section" = .ok "/foo/#section" ∧
    patchLink (parsePath "foo/bar.md") "?page=2" = .ok "/foo/?page=2" ∧
    patchLink (parsePath "foo/bar.md") "#section" ≠ .ok "#section" := by
  refine ⟨rfl, rfl, rfl, ?_⟩
  intro h
  rw [show patchLink (parsePath "foo/bar.md") "#section" = .ok "/foo/#section" from rfl] at h
  exact absurd (Except.ok.inj h) (by decide)

/-- C4 amended: only targets that parse as absolute URLs (a scheme followed
by a colon) take the no-op path; empty, fragment-only and query-only targets
are not URLs and are resolved against the document's directory like any
relative path. -/
theorem c4_amended :
    (∀ doc url, isUrl url = true → patchLink doc url = .ok url) ∧
    isUrl "" = false ∧
    isUrl "#section" = false ∧
    isUrl "?page=2" = false ∧
    patchLink (parsePath "foo/bar.md") "" = .ok "/foo" ∧
    patchLink (parsePath "foo/bar.md") "#section" = .ok "/foo/#section" ∧
    patchLink (parsePath "foo/bar.md") "?page=2" = .ok "/foo/?page=2" := by
  refine ⟨?_, rfl, rfl, rfl, rfl, rfl, rfl⟩
  intro doc url h
  unfold patchLink
  rw [h]
  simp

/-- Witness for `c4_amended`: a `mailto:` URL passes through unchanged. -/
theorem c4_amended_witness :
    patchLink (parsePath "foo/bar.md") "mailto:me@uimataso.com" =
      .ok "mailto:me@uimataso.com" :=
  c4_amended.1 (parsePath "foo/bar.md") "mailto:me@uimataso.com" rfl

/-! ## C3: the blog filename grammar -/

/-- C3 counterexample: `2024-1-5-x` does not match the width-4/2/2 pattern,
yet filename parsing accepts it — "succeeds exactly when the pattern matches"
is false. -/
theorem c3_counterexample :
    specBlogPattern "2024-1-5-x" = false ∧
    parseDateSlug "2024-1-5-x" = .ok (⟨2024, 1, 5⟩, "x") ∧
    parsePathBlog { abs := false, comps := ["2024-1-5-x.md"] } = .ok (⟨2024, 1, 5⟩, "x") :=
  ⟨rfl, rfl, rfl⟩

theorem splitnCore_ne_nil (sep : Char) (n : Nat) (cs : List Char) :
    splitnCore sep (n + 1) cs ≠ [] := by
  match n with
  | 0 => simp [splitnCore]
  | m + 1 =>
    unfold splitnCore
    by_cases h : (cs.takeWhile (· != sep)).length = cs.length <;> simp [h]

/-- If the separator-free head does not exhaust the list, the list splits at
the first separator. -/
theorem takeWhile_drop_decomp (sep : Char) :
    ∀ cs : List Char, ¬ (cs.takeWhile (· != sep)).length = cs.length →
      cs = cs.takeWhile (· != sep) ++ sep :: cs.drop ((cs.takeWhile (· != sep)).length + 1) := by
  intro cs
  induction cs with
  | nil => intro h; simp at h
  | cons c rest ih =>
    intro h
    by_cases hc : c = sep
    · subst hc
      simp [List.takeWhile_cons]
    · rw [List.takeWhile_cons_of_pos (by simp [hc])] at h ⊢
      simp only [List.length_cons, List.drop_succ_cons]
      have h' : ¬ (rest.takeWhile (· != sep)).length = rest.length := by
        intro he; exact h (by simp [he])
      conv_lhs => rw [ih h']
      simp

theorem splitnCore_sound (sep : Char) :
    ∀ (n : Nat) (cs : List Char),
      joinChar sep (splitnCore sep (n + 1) cs) = cs ∧
      ∀ x ∈ (splitnCore sep (n + 1) cs).dropLast, sep ∉ x := by
  intro n
  induction n with
  | zero => intro cs; simp [splitnCore, joinChar]
  | succ m ih =>
    intro cs
    unfold splitnCore
    by_cases h : (cs.takeWhile (· != sep)).length = cs.length
    · simp [h, joinChar]
    · simp only [h, if_false]
      obtain ⟨ihj, ihf⟩ := ih (cs.drop ((cs.takeWhile (· != sep)).length + 1))
      constructor
      · have hne := splitnCore_ne_nil sep m (cs.drop ((cs.takeWhile (· != sep)).length + 1))
        obtain ⟨p, ps, hps⟩ := List.exists_cons_of_ne_nil hne
        rw [hps] at ihj ⊢
        show joinChar sep (cs.takeWhile (· != sep) :: p :: ps) = cs
        unfold joinChar
        rw [show joinChar sep (p :: ps) = cs.drop ((cs.takeWhile (· != sep)).length + 1)
          from ihj]
        exact (takeWhile_drop_decomp sep cs h).symm
      · intro x hx
        have hne := splitnCore_ne_nil sep m (cs.drop ((cs.takeWhile (· != sep)).length + 1))
        rw [List.dropLast_cons_of_ne_nil hne] at hx
        rcases List.mem_cons.mp hx with hx | hx
        · subst hx
          intro hmem
          have := List.mem_takeWhile_imp hmem
          simp at this
        · exact ihf x hx

/-- Dropping one past a prefix lands right after the separator. -/
theorem drop_append_sep (sep : Char) :
    ∀ (a r : List Char), (a ++ sep :: r).drop (a.length + 1) = r := by
  intro a
  induction a with
  | nil => intro r; simp
  | cons c cs ih =>
    intro r
    simp only [List.cons_append, List.length_cons, List.drop_succ_cons]
    exact ih r

/-- Splitting a list that starts with a separator-free piece peels that piece
off. -/
theorem splitnCore_append (sep : Char) (n : Nat) (a rest : List Char) (ha : sep ∉ a) :
    splitnCore sep (n + 2) (a ++ sep :: rest) = a :: splitnCore sep (n + 1) rest := by
  have htw : (a ++ sep :: rest).takeWhile (· != sep) = a := by
    induction a with
    | nil => simp [List.takeWhile_cons]
    | cons c cs ih =>
      have hc : c ≠ sep := fun h => ha (by simp [h])
      have hcs : sep ∉ cs := fun h => ha (List.mem_cons_of_mem _ h)
      simp only [List.cons_append]
      rw [List.takeWhile_cons_of_pos (by simp [hc]), ih hcs]
  have hlen : ¬ ((a ++ sep :: rest).takeWhile (· != sep)).length = (a ++ sep :: rest).length := by
    rw [htw]
    simp only [List.length_append, List.length_cons]
    omega
  rw [htw] at hlen
  conv_lhs => unfold splitnCore
  simp only [htw]
  rw [if_neg hlen, drop_append_sep]

/-- Appending strings appends their character lists. -/
theorem strData_append (x y : String) : (x ++ y).data = x.data ++ y.data := rfl

/-- `splitn 4` returns `[a, b, c, r]` exactly when the input decomposes at
its first three separators into `a`, `b`, `c` (separator-free) and the
verbatim remainder `r`. -/
theorem splitn4_iff (f a b c r : String) :
    splitn 4 '-' f = [a, b, c, r] ↔
      f = a ++ "-" ++ b ++ "-" ++ c ++ "-" ++ r ∧
        '-' ∉ a.data ∧ '-' ∉ b.data ∧ '-' ∉ c.data := by
  have hdash : ("-" : String).data = ['-'] := rfl
  have hcat : (a ++ "-" ++ b ++ "-" ++ c ++ "-" ++ r).data =
      a.data ++ '-' :: (b.data ++ '-' :: (c.data ++ '-' :: r.data)) := by
    simp [strData_append, hdash]
  constructor
  · intro hs
    have hl : splitnCore '-' 4 f.data = [a.data, b.data, c.data, r.data] := by
      have hm := congrArg (List.map String.data) hs
      unfold splitn at hm
      rw [List.map_map,
        show (String.data ∘ fun cs : List Char => ({ data := cs } : String)) = id from rfl,
        List.map_id] at hm
      simpa using hm
    obtain ⟨hj, hfree⟩ := splitnCore_sound '-' 3 f.data
    rw [hl] at hj hfree
    refine ⟨?_, ?_, ?_, ?_⟩
    · have hd : f.data = (a ++ "-" ++ b ++ "-" ++ c ++ "-" ++ r).data := by
        rw [hcat, ← hj]
        simp [joinChar]
      exact congrArg String.mk hd
    · exact hfree a.data (by simp)
    · exact hfree b.data (by simp)
    · exact hfree c.data (by simp)
  · rintro ⟨hf, ha, hb, hc⟩
    subst hf
    unfold splitn
    rw [hcat, splitnCore_append '-' 2 _ _ ha, splitnCore_append '-' 1 _ _ hb,
      splitnCore_append '-' 0 _ _ hc]
    rfl

/-- C3 amended: filename parsing succeeds exactly on names that decompose at
their first three hyphens into integer-parsing fields (widths NOT enforced)
forming a valid calendar date, the verbatim remainder being the slug;
`parse_path` is that check applied to the extension-stripped file name.  The
claim's four examples behave as it states. -/
theorem c3_amended :
    (∀ f date slug, parseDateSlug f = .ok (date, slug) ↔ SpecBlogName f date slug) ∧
    (∀ p f, (setExtensionEmpty p).fileName = some f → parsePathBlog p = parseDateSlug f) ∧
    parseDateSlug "2024-01-05-my-first-post" = .ok (⟨2024, 1, 5⟩, "my-first-post") ∧
    parseDateSlug "2024-13-05-x" = .error "the date isn't valid" ∧
    parseDateSlug "2024-01-05" =
      .error "expected the filename have the format of yyyy-mm-dd-blog-name" ∧
    parseDateSlug "not-a-date-post" = .error "failed to parse year" ∧
    parseDateSlug "2024-1-5-x" = .ok (⟨2024, 1, 5⟩, "x") := by
  refine ⟨?_, ?_, rfl, rfl, rfl, rfl, rfl⟩
  · intro f date slug
    constructor
    · intro h
      unfold parseDateSlug at h
      rcases hs : splitn 4 '-' f with _ | ⟨a, _ | ⟨b, _ | ⟨c, _ | ⟨r, _ | ⟨x, xs⟩⟩⟩⟩⟩ <;>
        simp only [hs] at h
      any_goals exact Except.noConfusion h
      rcases hy : parseI32 a with _ | y <;> simp only [hy] at h
      any_goals exact Except.noConfusion h
      rcases hm : parseU32 b with _ | m <;> simp only [hm] at h
      any_goals exact Except.noConfusion h
      rcases hd : parseU32 c with _ | d <;> simp only [hd] at h
      any_goals exact Except.noConfusion h
      rcases hv : fromYmdOpt y m d with _ | v <;> simp only [hv] at h
      any_goals exact Except.noConfusion h
      simp only [Except.ok.injEq, Prod.mk.injEq] at h
      obtain ⟨hvdate, hslug⟩ := h
      obtain ⟨hf, ha, hb, hc⟩ := (splitn4_iff f a b c r).mp hs
      exact ⟨a, b, c, by rw [hf, hslug], ha, hb, hc, y, m, d, hy, hm, hd, by rw [hv, hvdate]⟩
    · rintro ⟨ys, ms, ds, hf, ha, hb, hc, y, m, d, hy, hm, hd, hv⟩
      have hs : splitn 4 '-' f = [ys, ms, ds, slug] :=
        (splitn4_iff f ys ms ds slug).mpr ⟨hf, ha, hb, hc⟩
      unfold parseDateSlug
      simp only [hs, hy, hm, hd, hv]
  · intro p f h
    unfold parsePathBlog
    rw [h]

/-- Witness for `c3_amended`: the refinement clauses applied at the
spec's leading example. -/
theorem c3_amended_witness :
    parsePathBlog { abs := false, comps := ["blog", "2024-01-05-my-first-post.md"] } =
      parseDateSlug "2024-01-05-my-first-post" ∧
    parseDateSlug "2024-01-05-my-first-post" = .ok (⟨2024, 1, 5⟩, "my-first-post") :=
  ⟨c3_amended.2.1 { abs := false, comps := ["blog", "2024-01-05-my-first-post.md"] }
      "2024-01-05-my-first-post" rfl,
   (c3_amended.1 "2024-01-05-my-first-post" ⟨2024, 1, 5⟩ "my-first-post").mpr
     ⟨"2024", "01", "05", rfl, by decide, by decide, by decide,
      2024, 1, 5, rfl, rfl, rfl, rfl⟩⟩

/-! ## C6: a blog-directory file whose name does not parse -/

/-- C6 counterexample: `blog/not-a-date-post.md` has a filename the date-slug
grammar rejects, yet `handle_file` classifies it as an ordinary rendered page
(`try_get_blog_entry` swallows the parse failure into `None`) — there is no
hard parse failure and the build is not aborted. -/
theorem c6_counterexample :
    parseBlogFileName "not-a-date-post" = .error "failed to parse year" ∧
    tryGetBlogEntry (parsePath "blog/not-a-date-post.md") = .ok none ∧
    handleFile (parsePath "blog/not-a-date-post.md") = .ok .ordinaryPage :=
  ⟨rfl, rfl, rfl⟩

/-- C6 amended: every Markdown file directly under `blog/` whose
extension-stripped name fails the date-slug grammar is classified as an
ordinary page — the parse failure is swallowed, never an error. -/
theorem c6_amended (relPath : RPath) (f : String) (e : String)
    (hext : extensionIs relPath "md" = true)
    (hdir : relPath.parent = { abs := false, comps := ["blog"] })
    (hname : (setExtensionEmpty relPath).fileName = some f)
    (hparse : parseBlogFileName f = .error e) :
    tryGetBlogEntry relPath = .ok none ∧ handleFile relPath = .ok .ordinaryPage := by
  have htry : tryGetBlogEntry relPath = .ok none := by
    unfold tryGetBlogEntry
    simp only [hext, hdir, hname, hparse]
    simp
  refine ⟨htry, ?_⟩
  unfold handleFile
  simp only [hext, htry, if_true]
  rfl

/-- Witness for `c6_amended` at the counterexample's input. -/
theorem c6_amended_witness :
    tryGetBlogEntry (parsePath "blog/nodate.md") = .ok none ∧
    handleFile (parsePath "blog/nodate.md") = .ok .ordinaryPage :=
  c6_amended (parsePath "blog/nodate.md") "nodate"
    "expected the filename have the format of yyyy-mm-dd-blog-name" rfl rfl rfl rfl

/-! ## C7: title extraction precedence -/

/-- A convenience for stating `find?` results below: the first level-1
heading. -/
theorem find_isH1_append (pre post : List MdNode) (inline : String)
    (hpre : ∀ n ∈ pre, isH1 n = false) :
    (pre ++ MdNode.heading 1 inline :: post).find? isH1 = some (.heading 1 inline) := by
  induction pre with
  | nil => simp [List.find?_cons, isH1]
  | cons n rest ih =>
    have hn : isH1 n = false := hpre n (by simp)
    simp only [List.cons_append, List.find?_cons, hn]
    exact ih fun x hx => hpre x (List.mem_cons_of_mem _ hx)

/-- C7: title precedence.  A frontmatter title is used verbatim (its HTML
form the rendering of that string); otherwise the first level-1 heading's
inline content, end-trimmed, is used; with neither, building the title fails
with the `title not found` error. -/
theorem c7_title_precedence (render : String → String) (fm : Frontmatter)
    (nodes : List MdNode) :
    (∀ t, fm.title = some t →
      buildTitle render fm nodes = .ok { markdown := t, html := render t }) ∧
    (fm.title = none → ∀ pre inline post,
      nodes = pre ++ MdNode.heading 1 inline :: post →
      (∀ n ∈ pre, isH1 n = false) →
      buildTitle render fm nodes =
        .ok { markdown := rustTrimEnd inline, html := render (rustTrimEnd inline) }) ∧
    (fm.title = none → (∀ n ∈ nodes, isH1 n = false) →
      buildTitle render fm nodes = .error "title not found") := by
  refine ⟨?_, ?_, ?_⟩
  · intro t ht
    unfold buildTitle getTitle
    rw [ht]
    rfl
  · intro ht pre inline post hnodes hpre
    have hdrop : rustTrimEnd ⟨(formatCommonmarkH1 inline).data.drop 2⟩ = rustTrimEnd inline := by
      have hdata : (formatCommonmarkH1 inline).data = '#' :: ' ' :: (inline.data ++ ['\n']) := by
        unfold formatCommonmarkH1
        rw [strData_append, strData_append]
        rfl
      rw [hdata]
      unfold rustTrimEnd
      simp [List.reverse_append]
    unfold buildTitle getTitle
    rw [ht, hnodes, find_isH1_append pre post inline hpre]
    simp only [Option.map_some']
    rw [hdrop]
  · intro ht hnone
    unfold buildTitle getTitle
    rw [ht, List.find?_eq_none.mpr fun x hx => by rw [hnone x hx]; exact Bool.false_ne_true]
    rfl

/-- Witness for `c7_title_precedence`, covering all three clauses: metadata
title `A` beats heading `B`; heading `B` alone is used; neither is the
`title not found` error. -/
theorem c7_title_precedence_witness :
    buildTitle id { title := some "A", description := none, tags := [] }
        [MdNode.heading 1 "B"] = .ok { markdown := "A", html := "A" } ∧
    buildTitle id { title := none, description := none, tags := [] }
        [MdNode.other, MdNode.heading 2 "X", MdNode.heading 1 "B"] =
      .ok { markdown := "B", html := "B" } ∧
    buildTitle id { title := none, description := none, tags := [] }
        [MdNode.paragraph "p"] = .error "title not found" := by
  refine ⟨?_, ?_, ?_⟩
  · exact (c7_title_precedence id _ _).1 "A" rfl
  · have h := (c7_title_precedence id
      { title := none, description := none, tags := [] }
      [MdNode.other, MdNode.heading 2 "X", MdNode.heading 1 "B"]).2.1 rfl
      [MdNode.other, MdNode.heading 2 "X"] "B" [] rfl (by decide)
    rw [h]
    rfl
  · exact (c7_title_precedence id _ _).2.2 rfl (by decide)

/-! ## C9: feed construction -/

/-- C9: when no blog entry has any commit history the feed build is skipped
(`ok` with no feed, not an error); otherwise the emitted feed's publish and
last-build timestamps both equal the maximum over all entries of the entry's
most-recent-commit time. -/
theorem c9_feed_timestamps (l : List BlogEntryM) :
    ((∀ e ∈ l, e.lastCommit = none) → buildRss l = .ok none) ∧
    (∀ f, buildRss l = .ok (some f) →
      f.lastBuildDate = f.pubDate ∧
      (∃ e ∈ l, ∃ c, e.lastCommit = some c ∧ c.time = f.pubDate) ∧
      (∀ e ∈ l, ∀ c, e.lastCommit = some c → c.time ≤ f.pubDate)) := by
  constructor
  · intro hnone
    unfold buildRss
    rw [List.filterMap_eq_nil_iff.mpr fun e he => hnone e he]
    rfl
  · intro f hf
    unfold buildRss at hf
    rcases hmax : ((l.filterMap BlogEntryM.lastCommit).map BlogCommitM.time).max? with _ | t <;>
      simp only [hmax] at hf
    · exact Option.noConfusion (Except.ok.inj hf)
    · obtain rfl : ({ pubDate := t, lastBuildDate := t } : RssFeed) = f :=
        Option.some.inj (Except.ok.inj hf)
      refine ⟨rfl, ?_, ?_⟩
      · have hmem := List.max?_mem (fun a b => max_choice a b) hmax
        rcases List.mem_map.mp hmem with ⟨c, hc, hct⟩
        rcases List.mem_filterMap.mp hc with ⟨e, he, hec⟩
        exact ⟨e, he, c, hec, hct⟩
      · intro e he c hc
        have hmem : c.time ∈ (l.filterMap BlogEntryM.lastCommit).map BlogCommitM.time :=
          List.mem_map.mpr ⟨c, List.mem_filterMap.mpr ⟨e, he, hc⟩, rfl⟩
        exact (List.max?_le_iff (fun a b c => max_le_iff) hmax).mp le_rfl c.time hmem

/-- Witness for `c9_feed_timestamps`: both clauses at tiny concrete inputs. -/
theorem c9_feed_timestamps_witness :
    buildRss [{ lastCommit := none }] = .ok none ∧
    ({ pubDate := 9, lastBuildDate := 9 } : RssFeed).lastBuildDate = 9 := by
  constructor
  · exact (c9_feed_timestamps [{ lastCommit := none }]).1 (by decide)
  · have h := (c9_feed_timestamps
      [{ lastCommit := some { time := 5, hash := "a" } },
       { lastCommit := some { time := 9, hash := "b" } }]).2
      { pubDate := 9, lastBuildDate := 9 } rfl
    rw [h.1]

/-! ## C10: the output-directory existence check -/

/-- C10: whenever the destination path exists — whether or not it is an empty
directory — `Generator::new` fails with `output dir is not empty` before the
git repository is opened or the config read (both are passed through
untouched), so a repeated build into the same output directory fails at
construction. -/
theorem c10_output_dir_check (dstDirIsEmptyDir : Bool)
    (openGitRepo readConfig : Except String Unit) :
    generatorNew true dstDirIsEmptyDir openGitRepo readConfig =
      .error "output dir is not empty" := rfl

/-! ## C8: `commits_for_file` -/

/-- A successful lookup comes from a stored commit with that id. -/
theorem mem_commits_of_lookup {g : GitGraph} {i : Nat} {cd : CommitData}
    (h : g.lookup i = some cd) :
    ∃ pr ∈ g.commits, pr.1 = i ∧ pr.2 = cd := by
  unfold GitGraph.lookup at h
  rcases Option.map_eq_some'.mp h with ⟨pr, hfind, hpr2⟩
  refine ⟨pr, List.mem_of_find?_eq_some hfind, ?_, hpr2⟩
  have hp := List.find?_some hfind
  simpa using hp

/-- Every stored id can be looked up. -/
theorem lookup_of_mem_ids {g : GitGraph} {i : Nat} (h : i ∈ g.ids) :
    ∃ cd, g.lookup i = some cd := by
  unfold GitGraph.ids at h
  rcases List.mem_map.mp h with ⟨pr, hpr, hpr1⟩
  have hsome : (g.commits.find? fun pr => pr.1 = i).isSome :=
    List.find?_isSome.mpr ⟨pr, hpr, by simp [hpr1]⟩
  rcases Option.isSome_iff_exists.mp hsome with ⟨pr', hpr'⟩
  exact ⟨pr'.2, by unfold GitGraph.lookup; rw [hpr']; rfl⟩

/-- The parents of any commit are stored, in a well-formed store. -/
theorem parentsOf_subset_ids {g : GitGraph} (hwf : WFGraph g) (i : Nat) :
    parentsOf g i ⊆ g.ids := by
  unfold parentsOf
  cases hl : g.lookup i with
  | none => simp
  | some cd =>
    simp only [Option.map_some', Option.getD_some]
    obtain ⟨pr, hpr, _, hpr2⟩ := mem_commits_of_lookup hl
    intro q hq
    exact hwf.2 pr hpr q (hpr2 ▸ hq)

/-- One step of the closure keeps everything it had. -/
theorem subset_reachStep (g : GitGraph) (s : List Nat) : s ⊆ reachStep g s := by
  intro a ha
  unfold reachStep
  exact List.mem_dedup.mpr (List.mem_append_left _ ha)

/-- The closure step is monotone. -/
theorem reachStep_mono {g : GitGraph} {s t : List Nat} (h : s ⊆ t) :
    reachStep g s ⊆ reachStep g t := by
  intro a ha
  unfold reachStep at ha ⊢
  rw [List.mem_dedup] at ha ⊢
  rcases List.mem_append.mp ha with ha | ha
  · exact List.mem_append_left _ (h ha)
  · rcases List.mem_flatMap.mp ha with ⟨j, hj, hpj⟩
    exact List.mem_append_right _ (List.mem_flatMap.mpr ⟨j, h hj, hpj⟩)

theorem reachN_subset_succ (g : GitGraph) (n : Nat) : reachN g n ⊆ reachN g (n + 1) :=
  subset_reachStep g (reachN g n)

theorem reachN_mono (g : GitGraph) {m n : Nat} (h : m ≤ n) : reachN g m ⊆ reachN g n := by
  induction n with
  | zero =>
    have : m = 0 := Nat.le_zero.mp h
    subst this
    exact fun a ha => ha
  | succ k ih =>
    rcases Nat.lt_or_ge m (k + 1) with hlt | hge
    · exact fun a ha => reachN_subset_succ g k (ih (Nat.lt_succ_iff.mp hlt) ha)
    · have hm : m = k + 1 := Nat.le_antisymm h hge
      subst hm
      exact fun a ha => ha

/-- The closure stays inside the stored ids. -/
theorem reachN_subset_ids {g : GitGraph} (hwf : WFGraph g) (n : Nat) :
    reachN g n ⊆ g.ids := by
  induction n with
  | zero =>
    intro a ha
    have : a = g.head := by simpa [reachN] using ha
    subst this
    exact hwf.1
  | succ k ih =>
    intro a ha
    change a ∈ reachStep g (reachN g k) at ha
    unfold reachStep at ha
    rw [List.mem_dedup] at ha
    rcases List.mem_append.mp ha with ha | ha
    · exact ih ha
    · rcases List.mem_flatMap.mp ha with ⟨j, hj, hpj⟩
      exact parentsOf_subset_ids hwf j hpj

/-- Once one step adds nothing, no further step ever does. -/
theorem reachN_stab {g : GitGraph} {n : Nat} (h : reachN g (n + 1) ⊆ reachN g n) :
    ∀ m, reachN g (n + m) ⊆ reachN g n := by
  intro m
  induction m with
  | zero => exact fun a ha => ha
  | succ k ih =>
    intro a ha
    have hstep : reachStep g (reachN g (n + k)) ⊆ reachStep g (reachN g n) :=
      reachStep_mono ih
    have ha' : a ∈ reachN g (n + 1) := hstep (by rw [Nat.add_succ] at ha; exact ha)
    exact h ha'

/-- The closure stabilizes within `commits.length` steps. -/
theorem exists_stab {g : GitGraph} (hwf : WFGraph g) :
    ∃ k, k ≤ g.commits.length ∧ reachN g (k + 1) ⊆ reachN g k := by
  have key : ∀ n : Nat, (∃ k, k < n ∧ reachN g (k + 1) ⊆ reachN g k) ∨
      n + 1 ≤ (reachN g n).toFinset.card := by
    intro n
    induction n with
    | zero =>
      right
      simp [reachN]
    | succ m ih =>
      rcases ih with ⟨k, hk, hs⟩ | hcard
      · exact Or.inl ⟨k, Nat.lt_succ_of_lt hk, hs⟩
      · by_cases hsub : reachN g (m + 1) ⊆ reachN g m
        · exact Or.inl ⟨m, Nat.lt_succ_self m, hsub⟩
        · right
          have hsubF : (reachN g m).toFinset ⊆ (reachN g (m + 1)).toFinset := fun a ha =>
            List.mem_toFinset.mpr (reachN_subset_succ g m (List.mem_toFinset.mp ha))
          obtain ⟨x, hx1, hx2⟩ : ∃ x ∈ reachN g (m + 1), x ∉ reachN g m := by
            by_contra hcon
            push_neg at hcon
            exact hsub fun a ha => hcon a ha
          have hss : (reachN g m).toFinset ⊂ (reachN g (m + 1)).toFinset :=
            (Finset.ssubset_iff_of_subset hsubF).mpr
              ⟨x, List.mem_toFinset.mpr hx1, fun hc => hx2 (List.mem_toFinset.mp hc)⟩
          have := Finset.card_lt_card hss
          omega
  rcases key g.commits.length with ⟨k, hk, hs⟩ | hcard
  · exact ⟨k, Nat.le_of_lt hk, hs⟩
  · exfalso
    have h1 : (reachN g g.commits.length).toFinset ⊆ g.ids.toFinset := fun a ha =>
      List.mem_toFinset.mpr (reachN_subset_ids hwf _ (List.mem_toFinset.mp ha))
    have h2 := Finset.card_le_card h1
    have h3 : g.ids.toFinset.card ≤ g.ids.length := List.toFinset_card_le _
    have h4 : g.ids.length = g.commits.length := by simp [GitGraph.ids]
    omega

/-- Every stage of the closure is below the final one. -/
theorem reachN_subset_reachable {g : GitGraph} (hwf : WFGraph g) (m : Nat) :
    reachN g m ⊆ reachableIds g := by
  obtain ⟨k, hkN, hstab⟩ := exists_stab hwf
  unfold reachableIds
  rcases Nat.le_total m g.commits.length with hm | hm
  · exact reachN_mono g hm
  · intro a ha
    have hkm : k ≤ m := le_trans hkN hm
    have hmem : a ∈ reachN g (k + (m - k)) := by
      rw [Nat.add_sub_cancel' hkm]
      exact ha
    exact reachN_mono g hkN (reachN_stab hstab (m - k) hmem)

/-- Soundness: everything the closure lists is reachable. -/
theorem reaches_of_mem_reachN {g : GitGraph} :
    ∀ n, ∀ i ∈ reachN g n, Reaches g i := by
  intro n
  induction n with
  | zero =>
    intro i hi
    have : i = g.head := by simpa [reachN] using hi
    subst this
    exact Reaches.head
  | succ k ih =>
    intro i hi
    change i ∈ reachStep g (reachN g k) at hi
    unfold reachStep at hi
    rw [List.mem_dedup] at hi
    rcases List.mem_append.mp hi with hi | hi
    · exact ih i hi
    · rcases List.mem_flatMap.mp hi with ⟨j, hj, hpj⟩
      unfold parentsOf at hpj
      cases hl : g.lookup j with
      | none => rw [hl] at hpj; simp at hpj
      | some cd =>
        rw [hl] at hpj
        simp only [Option.map_some', Option.getD_some] at hpj
        exact Reaches.parent (ih j hj) hl hpj

/-- Completeness: every reachable commit is listed by the closure. -/
theorem mem_reachable_of_reaches {g : GitGraph} (hwf : WFGraph g) {i : Nat}
    (h : Reaches g i) : i ∈ reachableIds g := by
  have hex : ∃ n, i ∈ reachN g n := by
    induction h with
    | head => exact ⟨0, by simp [reachN]⟩
    | parent hr hl hp ih =>
      rcases ih with ⟨n, hn⟩
      refine ⟨n + 1, ?_⟩
      change _ ∈ reachStep g (reachN g n)
      unfold reachStep
      rw [List.mem_dedup]
      refine List.mem_append_right _ (List.mem_flatMap.mpr ⟨_, hn, ?_⟩)
      unfold parentsOf
      rw [hl]
      simpa using hp
  rcases hex with ⟨n, hn⟩
  exact reachN_subset_reachable hwf n hn

/-- Reachability coincides with membership in the computed closure. -/
theorem reaches_iff {g : GitGraph} (hwf : WFGraph g) (i : Nat) :
    Reaches g i ↔ i ∈ reachableIds g :=
  ⟨mem_reachable_of_reaches hwf, fun h => reaches_of_mem_reachN g.commits.length i h⟩

/-- Membership in the walk output. -/
theorem mem_revwalk_iff (g : GitGraph) (i : Nat) (cd : CommitData) :
    (i, cd) ∈ revwalk g ↔ i ∈ reachableIds g ∧ g.lookup i = some cd := by
  unfold revwalk
  rw [List.Perm.mem_iff (List.perm_insertionSort _ _)]
  constructor
  · intro h
    rcases List.mem_filterMap.mp h with ⟨j, hj, hjeq⟩
    rcases Option.map_eq_some'.mp hjeq with ⟨cd', hcd', heq⟩
    cases heq
    exact ⟨hj, hcd'⟩
  · rintro ⟨h1, h2⟩
    exact List.mem_filterMap.mpr ⟨i, h1, by rw [h2]; rfl⟩

/-- The walk output is newest-first. -/
theorem revwalk_sorted (g : GitGraph) : List.Pairwise newerEq (revwalk g) :=
  List.sorted_insertionSort newerEq _

/-- With all diffs defined, the filtering loop is a plain filter. -/
theorem commitsForFileAux_eq_filter {g : GitGraph} {path : String} :
    ∀ l : List (Nat × CommitData),
      (∀ c ∈ l, diffForCommit g c.2 path = .ok (modifiesPath g c.2 path)) →
      commitsForFileAux g path l = .ok (l.filter fun c => modifiesPath g c.2 path) := by
  intro l
  induction l with
  | nil => intro _; rfl
  | cons c rest ih =>
    intro hall
    unfold commitsForFileAux
    rw [hall c (by simp), ih fun x hx => hall x (List.mem_cons_of_mem _ hx)]
    by_cases hb : modifiesPath g c.2 path
    · simp [List.filter_cons, hb]
    · simp [List.filter_cons, hb]

/-- In a well-formed store, the per-commit diff never errors and computes
the `modifiesPath` predicate. -/
theorem diffForCommit_ok {g : GitGraph} (hwf : WFGraph g) {i : Nat} {cd : CommitData}
    (hl : g.lookup i = some cd) (path : String) :
    diffForCommit g cd path = .ok (modifiesPath g cd path) := by
  unfold diffForCommit modifiesPath
  cases hp : cd.parents with
  | nil => rfl
  | cons pid rest =>
    obtain ⟨pr, hpr, _, hpr2⟩ := mem_commits_of_lookup hl
    have hpid : pid ∈ g.ids := hwf.2 pr hpr pid (by rw [hpr2, hp]; simp)
    obtain ⟨pd, hpd⟩ := lookup_of_mem_ids hpid
    simp [hpd]

/-- C8: under a well-formed commit store, `commits_for_file` returns `ok`
(never an error) with exactly the commits reachable from the branch head
whose first-parent diff restricted to the path is non-empty (root commits
diffing against the empty tree), ordered newest-first by commit time; when no
reachable commit modifies the path the result is the empty list. -/
theorem c8_commits_for_file (g : GitGraph) (path : String) (hwf : WFGraph g) :
    ∃ l, commitsForFile g path = .ok l ∧
      (∀ i cd, (i, cd) ∈ l ↔
        Reaches g i ∧ g.lookup i = some cd ∧ modifiesPath g cd path = true) ∧
      List.Pairwise newerEq l ∧
      ((∀ i cd, Reaches g i → g.lookup i = some cd → modifiesPath g cd path = false) →
        l = []) := by
  refine ⟨(revwalk g).filter (fun c => modifiesPath g c.2 path), ?_, ?_, ?_, ?_⟩
  · unfold commitsForFile
    apply commitsForFileAux_eq_filter
    intro c hc
    have hmem := (mem_revwalk_iff g c.1 c.2).mp hc
    exact diffForCommit_ok hwf hmem.2 path
  · intro i cd
    rw [List.mem_filter, mem_revwalk_iff, ← reaches_iff hwf]
    constructor
    · rintro ⟨⟨hr, hl⟩, hm⟩
      exact ⟨hr, hl, hm⟩
    · rintro ⟨hr, hl, hm⟩
      exact ⟨⟨hr, hl⟩, hm⟩
  · exact (revwalk_sorted g).sublist (List.filter_sublist _)
  · intro hnone
    rw [List.filter_eq_nil_iff]
    intro c hc
    have hmem := (mem_revwalk_iff g c.1 c.2).mp hc
    have hr : Reaches g c.1 := (reaches_iff hwf c.1).mpr hmem.1
    rw [hnone c.1 c.2 hr hmem.2]
    simp

/-- Witness for `c8_commits_for_file` on a three-commit linear history. -/
theorem c8_commits_for_file_witness :
    ∃ l, commitsForFile gWitness "blog/a.md" = .ok l ∧
      (∀ i cd, (i, cd) ∈ l ↔
        Reaches gWitness i ∧ gWitness.lookup i = some cd ∧
          modifiesPath gWitness cd "blog/a.md" = true) ∧
      List.Pairwise newerEq l ∧
      ((∀ i cd, Reaches gWitness i → gWitness.lookup i = some cd →
          modifiesPath gWitness cd "blog/a.md" = false) → l = []) :=
  c8_commits_for_file gWitness "blog/a.md" (by decide)

end MySite


